import Mathlib

/-!
Shallow embedding of the PII detector in `detector_SaraswathideviS.py`
(class `PIIDetector` plus the record-processing orchestration).

Modelling conventions:
* A record (a Python dict parsed from JSON) is an ordered association list
  `List (String × String)`; dict keys are unique, which appears as a
  `Nodup` hypothesis on general theorems.  Values are modelled as strings:
  the code converts every value with `str(...)` before use, and the Python
  truthiness test `if value:` becomes a non-emptiness test.
* Character classes of the compiled regular expressions (`\d`, `\w`,
  `[A-Z]`, `isalpha`, `isdigit`, whitespace) are modelled over their ASCII
  meaning via `Char.isDigit`, `Char.isAlpha`, `Char.isWhitespace`.
* The anchored `re.match(^...$)` patterns are applied to `.strip()`-ed
  strings everywhere except the raw `email_pattern.match` inside
  `detect_combinatorial_pii`'s device/ip context check; for that one call
  Python's `$` also accepts one trailing newline, which `emailMatchPy`
  models explicitly.
-/

set_option maxHeartbeats 1000000

namespace PIIDetector

/-- One parsed JSON record: field-name/value pairs in insertion order. -/
abbrev Record := List (String × String)

/-- Python `str.strip()` on the character list (ASCII whitespace). -/
def stripL (cs : List Char) : List Char :=
  ((cs.dropWhile Char.isWhitespace).reverse.dropWhile Char.isWhitespace).reverse

/-- Python `str.strip()`. -/
def strip (s : String) : String := ⟨stripL s.data⟩

/-- Accumulator-passing worker for `words`. -/
def wordsAux : List Char → List Char → List (List Char)
  | [], cur => if cur.isEmpty then [] else [cur.reverse]
  | c :: cs, cur =>
    if c.isWhitespace then
      if cur.isEmpty then wordsAux cs [] else cur.reverse :: wordsAux cs []
    else wordsAux cs (c :: cur)

/-- Python `str.split()` with no argument: split on whitespace runs and
drop empty tokens. -/
def words (cs : List Char) : List (List Char) := wordsAux cs []

/-- Accumulator-passing worker for `splitOnChar`. -/
def splitOnCharAux (sep : Char) : List Char → List Char → List (List Char)
  | [], cur => [cur.reverse]
  | c :: cs, cur =>
    if c = sep then cur.reverse :: splitOnCharAux sep cs []
    else splitOnCharAux sep cs (c :: cur)

/-- Python `str.split(sep)` for a one-character separator (empty parts are
kept, as Python does for an explicit separator). -/
def splitOnChar (sep : Char) (cs : List Char) : List (List Char) :=
  splitOnCharAux sep cs []

/-- Python slice `s[len(s)-n:]`, i.e. `s[-n:]` for `0 < n ≤ len(s)`. -/
def pyLast (n : Nat) (cs : List Char) : List Char := cs.drop (cs.length - n)

/-- Python `str.isalpha()`: non-empty and all alphabetic. -/
def pyIsAlphaStr (cs : List Char) : Bool := !cs.isEmpty && cs.all Char.isAlpha

/-- The apostrophe character (U+0027), stripped by `is_full_name`. -/
def aposChar : Char := Char.ofNat 39

/-- The newline character, relevant to Python's `$` anchor. -/
def nlChar : Char := Char.ofNat 10

/-- Regex `\w`: word characters (ASCII model). -/
def wordChar (c : Char) : Bool := c.isAlpha || c.isDigit || c = '_'

/-- Character class `[A-Za-z0-9._%+-]` of the email local part. -/
def localChar (c : Char) : Bool :=
  c.isAlpha || c.isDigit || c = '.' || c = '_' || c = '%' || c = '+' || c = '-'

/-- Character class `[A-Za-z0-9.-]` of the email domain part. -/
def domChar (c : Char) : Bool := c.isAlpha || c.isDigit || c = '.' || c = '-'

/-- Character class `[A-Z|a-z]` of the email TLD part.  Note that the class
written in the source literally contains the bar character. -/
def tldChar (c : Char) : Bool := c.isAlpha || c = '|'

/-- Character class `[\w.-]` of the UPI pattern. -/
def upiChar (c : Char) : Bool := wordChar c || c = '.' || c = '-'

/-- `phone_pattern = ^\d{10}$` applied with `re.match` to a stripped
string: exactly ten decimal digits. -/
def phoneMatch (cs : List Char) : Bool :=
  decide (cs.length = 10) && cs.all Char.isDigit

/-- `aadhar_pattern = ^\d{12}$`: exactly twelve decimal digits. -/
def aadharMatch (cs : List Char) : Bool :=
  decide (cs.length = 12) && cs.all Char.isDigit

/-- `passport_pattern = ^[A-Z]\d{7}$`. -/
def passportMatch (cs : List Char) : Bool :=
  match cs with
  | c :: rest => c.isUpper && decide (rest.length = 7) && rest.all Char.isDigit
  | [] => false

/-- `upi_pattern = ^[\w.-]+@[\w.-]+$|^\d{10}@\w+$`.  Both character
classes exclude `@`, so splitting on `@` is a faithful rendering. -/
def upiMatch (cs : List Char) : Bool :=
  (match splitOnChar '@' cs with
   | [a, b] => !a.isEmpty && !b.isEmpty && a.all upiChar && b.all upiChar
   | _ => false)
  ||
  (match splitOnChar '@' cs with
   | [a, b] =>
     decide (a.length = 10) && a.all Char.isDigit && !b.isEmpty && b.all wordChar
   | _ => false)

/-- Tail `[A-Z|a-z]{2,}$` of the email pattern. -/
def tldPart (cs : List Char) : Bool := decide (2 ≤ cs.length) && cs.all tldChar

/-- Tail `[A-Za-z0-9.-]+\.[A-Z|a-z]{2,}$` of the email pattern: some dot
splits the input into a non-empty domain part and a valid TLD part. -/
def domainDotTld (cs : List Char) : Bool :=
  (List.range cs.length).any fun j =>
    decide (cs.get? j = some '.') && decide (1 ≤ j) &&
      (cs.take j).all domChar && tldPart (cs.drop (j + 1))

/-- `email_pattern = ^[A-Za-z0-9._%+-]+@[A-Za-z0-9.-]+\.[A-Z|a-z]{2,}$`,
matched at end of string: some `@` splits the input into a non-empty local
part and a matching domain/TLD tail. -/
def emailCore (cs : List Char) : Bool :=
  (List.range cs.length).any fun i =>
    decide (cs.get? i = some '@') && decide (1 ≤ i) &&
      (cs.take i).all localChar && domainDotTld (cs.drop (i + 1))

/-- `email_pattern.match`: Python's `$` also matches just before a single
trailing newline. -/
def emailMatchPy (cs : List Char) : Bool :=
  emailCore cs || (decide (cs.getLast? = some nlChar) && emailCore cs.dropLast)

/-- Lift `wordChar` to the optional character next to a position
(`none` = beyond either end of the string = not a word character). -/
def optWordChar : Option Char → Bool
  | some c => wordChar c
  | none => false

/-- `re.search(r"\b\d{6}\b", ...)`: six decimal digits somewhere in the
string, with no word character directly before or after them. -/
def hasPincode (cs : List Char) : Bool :=
  (List.range cs.length).any fun i =>
    decide (((cs.drop i).take 6).length = 6) &&
      ((cs.drop i).take 6).all Char.isDigit &&
      (decide (i = 0) || !optWordChar (cs.get? (i - 1))) &&
      !optWordChar (cs.get? (i + 6))

/-- Does the second list start with the first one? -/
def startsWithL : List Char → List Char → Bool
  | [], _ => true
  | _ :: _, [] => false
  | p :: ps, c :: cs => p = c && startsWithL ps cs

/-- Python substring test `pat in s`. -/
def hasSubstr (pat : List Char) : List Char → Bool
  | [] => pat.isEmpty
  | c :: cs => startsWithL pat (c :: cs) || hasSubstr pat cs

/-- `PIIDetector.is_standalone_pii` (lines 18-31). -/
def is_standalone_pii (key : String) (value : String) : Bool :=
  if value = "" then false
  else
    let vs := (strip value).data
    if key = "phone" ∨ key = "contact" then phoneMatch vs
    else if key = "aadhar" then aadharMatch vs
    else if key = "passport" then passportMatch vs
    else if key = "upi_id" then upiMatch vs
    else false

/-- `PIIDetector.is_full_name` (lines 33-42).  The `isinstance(value, str)`
guard always holds in this model; `part.replace("-", "").replace("'", "")`
is the filter removing hyphens and apostrophes. -/
def is_full_name (value : String) : Bool :=
  let parts := words (stripL value.data)
  if 2 ≤ parts.length then
    parts.all fun p =>
      pyIsAlphaStr (p.filter fun c => !(c = '-') && !(c = aposChar))
  else false

/-- The fixed keyword list of `is_physical_address`. -/
def addressKeywords : List (List Char) :=
  ["road".data, "street".data, "lane".data, "avenue".data, "nagar".data,
   "colony".data, "park".data]

/-- `PIIDetector.is_physical_address` (lines 44-66). -/
def is_physical_address (value : String) : Bool :=
  let cs := value.data
  let lower := cs.map Char.toLower
  let has_number := cs.any Char.isDigit
  let has_comma := cs.contains ','
  let word_count := decide (5 ≤ (words cs).length)
  let has_pincode := hasPincode cs
  let has_keyword := addressKeywords.any fun k => hasSubstr k lower
  (has_number && has_comma && word_count) || (has_pincode && has_keyword)

/-- First value bound to a key, if any (`data[k]` on a Python dict; for
records with `Nodup` keys the association list has at most one binding). -/
def lookupV (d : Record) (k : String) : Option String :=
  (d.find? fun kv => decide (kv.1 = k)).map Prod.snd

/-- Python truthiness of an optional looked-up value:
`k in data and data[k]`. -/
def truthy : Option String → Bool
  | some v => !(v = "")
  | none => false

/-- Lines 83-87: the user-context check guarding `device_id`/`ip_address`
in `detect_combinatorial_pii`.  Note that line 86 applies `email_pattern`
to the raw (unstripped) value. -/
def userContext (data : Record) : Bool :=
  (truthy (lookupV data "name") || truthy (lookupV data "email")) &&
  ((match lookupV data "name" with
    | some v => is_full_name v
    | none => false)
   ||
   (match lookupV data "email" with
    | some v => emailMatchPy v.data
    | none => false))

/-- One iteration of the field loop of `detect_combinatorial_pii`
(lines 71-88): does this field get appended to `found_pii`? -/
def qualifies (data : Record) (k : String) (v : String) : Bool :=
  if v = "" then false
  else
    let vs := strip v
    if k = "name" then is_full_name vs
    else if k = "email" then emailMatchPy vs.data
    else if k = "address" then is_physical_address vs
    else if k = "device_id" ∨ k = "ip_address" then userContext data
    else false

/-- `PIIDetector.detect_combinatorial_pii` (lines 68-90). -/
def detect_combinatorial_pii (data : Record) : Bool × List String :=
  let found := (data.filter fun kv => qualifies data kv.1 kv.2).map Prod.fst
  (decide (2 ≤ found.length), found)

/-- The generic fallback mask. -/
def redactedLit : String := "[REDACTED_PII]"

/-- A run of `n` mask characters. -/
def xRun (n : Nat) : List Char := List.replicate n 'X'

/-- `PIIDetector.mask_value` (lines 92-145).  The source is a chain of
`if` statements each guarded by a key test; since the key tests are
pairwise disjoint, a failed inner format precondition always falls through
to the final generic `"[REDACTED_PII]"`, which is rendered here as a
per-key `else`. -/
def mask_value (key : String) (value : String) : String :=
  if value = "" then value
  else
    let cs := (strip value).data
    if key = "phone" ∨ key = "contact" then
      if decide (cs.length = 10) && cs.all Char.isDigit then
        ⟨cs.take 2 ++ xRun 6 ++ pyLast 2 cs⟩
      else redactedLit
    else if key = "aadhar" then
      if decide (cs.length = 12) && cs.all Char.isDigit then
        ⟨cs.take 4 ++ xRun 4 ++ pyLast 4 cs⟩
      else redactedLit
    else if key = "email" then
      if cs.contains '@' then
        match splitOnChar '@' cs with
        | [l, dom] =>
          let ml := if 2 < l.length then l.take 2 ++ xRun 3 else xRun 3
          ⟨ml ++ '@' :: dom⟩
        | _ => redactedLit
      else redactedLit
    else if key = "name" then
      let parts := words cs
      if 2 ≤ parts.length then
        let f := parts.headD []
        let l := parts.getLastD []
        let mf := match f with | c :: _ => c :: xRun 3 | [] => xRun 3
        let ml := match l with | c :: _ => c :: xRun 4 | [] => xRun 4
        ⟨mf ++ ' ' :: ml⟩
      else redactedLit
    else if key = "address" then
      if 15 < cs.length then ⟨cs.take 10 ++ "... [REDACTED]".data⟩
      else redactedLit
    else if key = "upi_id" then
      if cs.contains '@' then
        match splitOnChar '@' cs with
        | [u, dom] =>
          let mu := if 3 < u.length then u.take 3 ++ xRun 3 else xRun 3
          ⟨mu ++ '@' :: dom⟩
        | _ => redactedLit
      else redactedLit
    else if key = "passport" then
      match cs with
      | c :: rest =>
        if decide (cs.length = 8) && c.isAlpha &&
            (!rest.isEmpty && rest.all Char.isDigit) then
          ⟨c :: (xRun 3 ++ pyLast 4 cs)⟩
        else redactedLit
      | [] => redactedLit
    else redactedLit

/-- Line 152's guard: `if value and self.is_standalone_pii(key, value)`. -/
def condB (kv : String × String) : Bool :=
  !(kv.2 = "") && is_standalone_pii kv.1 kv.2

/-- The net effect of the first loop of `process_record` on one field:
mask the value when the standalone guard fires, keep it otherwise. -/
def procEntry (kv : String × String) : String × String :=
  (kv.1, if condB kv then mask_value kv.1 kv.2 else kv.2)

/-- Python dict assignment `d[k] = v`: update in place when the key is
present, append otherwise. -/
def dictSet (d : Record) (k : String) (v : String) : Record :=
  if d.any (fun kv => decide (kv.1 = k)) then
    d.map fun kv => if kv.1 = k then (k, v) else kv
  else d ++ [(k, v)]

/-- One iteration of the first (standalone) loop of `process_record`
(lines 151-156). -/
def firstStep (acc : Record × Bool) (kv : String × String) : Record × Bool :=
  if condB kv then (dictSet acc.1 kv.1 (mask_value kv.1 kv.2), true)
  else (dictSet acc.1 kv.1 kv.2, acc.2)

/-- The combinatorial masking loop of `process_record` (lines 162-166). -/
def maskFound (record : Record) (red : Record) (found : List String) : Record :=
  found.foldl
    (fun r f =>
      match record.find? (fun kv => decide (kv.1 = f)) with
      | some kv => if kv.2 = "" then r else dictSet r f (mask_value f kv.2)
      | none => r)
    red

/-- `PIIDetector.process_record` (lines 147-168). -/
def process_record (record : Record) : Record × Bool :=
  let first := record.foldl firstStep ([], false)
  if first.2 then first
  else
    let comb := detect_combinatorial_pii record
    if comb.1 then (maskFound record first.1 comb.2, true)
    else first

/-! ### Whitespace, strip and words lemmas -/

theorem dropWhile_eq_self_of {p : Char → Bool} {l : List Char}
    (h : ∀ c ∈ l, p c = false) : l.dropWhile p = l := by
  cases l with
  | nil => rfl
  | cons c cs => simp [List.dropWhile_cons, h c (by simp)]

theorem stripL_eq_self {cs : List Char}
    (h : ∀ c ∈ cs, c.isWhitespace = false) : stripL cs = cs := by
  unfold stripL
  rw [dropWhile_eq_self_of h, dropWhile_eq_self_of, List.reverse_reverse]
  intro c hc
  exact h c (List.mem_reverse.mp hc)

theorem not_ws_of_digit {c : Char} (h : c.isDigit = true) :
    c.isWhitespace = false := by
  by_contra hne
  rw [Bool.not_eq_false] at hne
  simp only [Char.isWhitespace, Bool.or_eq_true, decide_eq_true_eq] at hne
  rcases hne with ((h1 | h1) | h1) | h1 <;> subst h1 <;> simp [Char.isDigit] at h

theorem wordsAux_forall {cs : List Char} :
    ∀ {cur : List Char}, (∀ c ∈ cur, c.isWhitespace = false) →
      ∀ w ∈ wordsAux cs cur, w ≠ [] ∧ ∀ c ∈ w, c.isWhitespace = false := by
  induction cs with
  | nil =>
    intro cur hcur w hw
    by_cases hc : cur.isEmpty
    · simp [wordsAux, hc] at hw
    · simp only [wordsAux, hc, if_neg, Bool.false_eq_true, ite_false,
        List.mem_singleton] at hw
      subst hw
      refine ⟨?_, ?_⟩
      · intro hnil
        rw [List.reverse_eq_nil_iff] at hnil
        rw [hnil] at hc
        exact hc rfl
      · intro c hcmem
        exact hcur c (List.mem_reverse.mp hcmem)
  | cons c cs ih =>
    intro cur hcur w hw
    by_cases hws : c.isWhitespace
    · by_cases hc : cur.isEmpty
      · rw [wordsAux, if_pos hws, if_pos hc] at hw
        exact ih (by intro x hx; simp at hx) w hw
      · rw [wordsAux, if_pos hws, if_neg hc] at hw
        rcases List.mem_cons.mp hw with hw | hw
        · subst hw
          refine ⟨?_, ?_⟩
          · intro hnil
            rw [List.reverse_eq_nil_iff] at hnil
            rw [hnil] at hc
            exact hc rfl
          · intro x hx
            exact hcur x (List.mem_reverse.mp hx)
        · exact ih (by intro x hx; simp at hx) w hw
    · rw [wordsAux, if_neg hws] at hw
      refine ih ?_ w hw
      intro x hx
      rcases List.mem_cons.mp hx with hx | hx
      · subst hx
        exact Bool.eq_false_iff.mpr hws
      · exact hcur x hx

/-- Every token produced by `words` is non-empty and free of whitespace. -/
theorem words_forall {cs : List Char} {w : List Char} (hw : w ∈ words cs) :
    w ≠ [] ∧ ∀ c ∈ w, c.isWhitespace = false :=
  wordsAux_forall (by intro x hx; simp at hx) w hw

theorem wordsAux_all_ws {w : List Char}
    (hws : ∀ c ∈ w, c.isWhitespace = true) :
    ∀ cur : List Char, wordsAux w cur =
      if cur.isEmpty then [] else [cur.reverse] := by
  induction w with
  | nil => intro cur; rfl
  | cons c w ih =>
    intro cur
    have hc : c.isWhitespace = true := hws c (by simp)
    have hrest : ∀ x ∈ w, x.isWhitespace = true := by
      intro x hx; exact hws x (List.mem_cons_of_mem _ hx)
    rw [wordsAux, if_pos hc]
    by_cases hcur : cur.isEmpty
    · rw [if_pos hcur, ih hrest]
      simp [hcur]
    · rw [if_neg hcur, ih hrest]
      simp [hcur]

theorem wordsAux_append_ws {w : List Char}
    (hws : ∀ c ∈ w, c.isWhitespace = true) :
    ∀ (m cur : List Char), wordsAux (m ++ w) cur = wordsAux m cur := by
  intro m
  induction m with
  | nil =>
    intro cur
    rw [List.nil_append, wordsAux_all_ws hws cur]
    rfl
  | cons c m ih =>
    intro cur
    by_cases hc : c.isWhitespace
    · by_cases hcur : cur.isEmpty
      · rw [List.cons_append, wordsAux, if_pos hc, if_pos hcur, ih,
          wordsAux, if_pos hc, if_pos hcur]
      · rw [List.cons_append, wordsAux, if_pos hc, if_neg hcur, ih,
          wordsAux, if_pos hc, if_neg hcur]
    · rw [List.cons_append, wordsAux, if_neg hc, ih, wordsAux, if_neg hc]

theorem wordsAux_dropWhile_ws (cs : List Char) :
    wordsAux (cs.dropWhile Char.isWhitespace) [] = wordsAux cs [] := by
  induction cs with
  | nil => rfl
  | cons c cs ih =>
    by_cases hc : c.isWhitespace
    · rw [List.dropWhile_cons, if_pos hc, ih, wordsAux, if_pos hc]
      rfl
    · rw [List.dropWhile_cons, if_neg (by simp [hc])]

/-- Stripping does not change the whitespace-separated token list. -/
theorem words_stripL (cs : List Char) : words (stripL cs) = words cs := by
  have hsplit : cs.dropWhile Char.isWhitespace = stripL cs ++
      ((cs.dropWhile Char.isWhitespace).reverse.takeWhile Char.isWhitespace).reverse := by
    unfold stripL
    rw [← List.reverse_append, List.takeWhile_append_dropWhile, List.reverse_reverse]
  have hws : ∀ c ∈ ((cs.dropWhile Char.isWhitespace).reverse.takeWhile
      Char.isWhitespace).reverse, c.isWhitespace = true := by
    intro c hc
    exact List.mem_takeWhile_imp (List.mem_reverse.mp hc)
  unfold words
  rw [← wordsAux_dropWhile_ws cs, hsplit, wordsAux_append_ws hws]

theorem strip_data (s : String) : (strip s).data = stripL s.data := rfl

/-- `is_full_name` is insensitive to an outer `strip`. -/
theorem is_full_name_strip (v : String) :
    is_full_name (strip v) = is_full_name v := by
  unfold is_full_name
  rw [strip_data, words_stripL]

/-! ### Association-list and record-processing lemmas -/

theorem dictSet_append {d : Record} {k : String} (v : String)
    (h : k ∉ d.map Prod.fst) : dictSet d k v = d ++ [(k, v)] := by
  unfold dictSet
  rw [if_neg]
  intro hany
  obtain ⟨kv, hkv, hdec⟩ := List.any_eq_true.mp hany
  rw [decide_eq_true_eq] at hdec
  exact h (List.mem_map.mpr ⟨kv, hkv, hdec⟩)

theorem dictSet_update {d : Record} {k : String} (v : String)
    (h : k ∈ d.map Prod.fst) :
    dictSet d k v = d.map fun kv => if kv.1 = k then (k, v) else kv := by
  unfold dictSet
  rw [if_pos]
  rcases List.mem_map.mp h with ⟨kv, hkv, hfst⟩
  exact List.any_eq_true.mpr ⟨kv, hkv, by simp [hfst]⟩

theorem map_fst_dictSet_update (d : Record) (k : String) (v : String) :
    (d.map fun kv => if kv.1 = k then (k, v) else kv).map Prod.fst =
      d.map Prod.fst := by
  rw [List.map_map]
  refine List.map_congr_left ?_
  intro kv _
  by_cases hk : kv.1 = k <;> simp [Function.comp, hk]

theorem foldl_firstStep (r : Record) :
    ∀ (acc : Record) (b : Bool),
      (∀ kv ∈ r, kv.1 ∉ acc.map Prod.fst) →
      (r.map Prod.fst).Nodup →
      r.foldl firstStep (acc, b) =
        (acc ++ r.map procEntry, b || r.any condB) := by
  induction r with
  | nil => intro acc b _ _; simp
  | cons kv rest ih =>
    intro acc b hdisj hnd
    rw [List.foldl_cons]
    have hk : kv.1 ∉ acc.map Prod.fst := hdisj kv (by simp)
    have hnd' : (rest.map Prod.fst).Nodup := by
      rw [List.map_cons, List.nodup_cons] at hnd
      exact hnd.2
    have hknotrest : kv.1 ∉ rest.map Prod.fst := by
      rw [List.map_cons, List.nodup_cons] at hnd
      exact hnd.1
    have hdisj' : ∀ kv' ∈ rest, kv'.1 ∉
        (acc ++ [(kv.1, if condB kv then mask_value kv.1 kv.2 else kv.2)]).map
          Prod.fst := by
      intro kv' hkv'
      rw [List.map_append, List.mem_append]
      rintro (hmem | hmem)
      · exact hdisj kv' (List.mem_cons_of_mem _ hkv') hmem
      · simp only [List.map_cons, List.map_nil, List.mem_singleton] at hmem
        exact hknotrest (hmem ▸ List.mem_map.mpr ⟨kv', hkv', rfl⟩)
    by_cases hc : condB kv
    · have hstep : firstStep (acc, b) kv =
          (acc ++ [(kv.1, if condB kv then mask_value kv.1 kv.2 else kv.2)],
            true) := by
        rw [firstStep, if_pos hc, if_pos hc]
        exact congrArg (·, true) (dictSet_append _ hk)
      rw [hstep, ih _ _ hdisj' hnd', List.map_cons]
      have hpe : procEntry kv =
          (kv.1, if condB kv then mask_value kv.1 kv.2 else kv.2) := rfl
      rw [← hpe, List.append_assoc, List.singleton_append, List.any_cons, hc]
      simp
    · have hstep : firstStep (acc, b) kv =
          (acc ++ [(kv.1, if condB kv then mask_value kv.1 kv.2 else kv.2)],
            b) := by
        rw [firstStep, if_neg hc, if_neg hc]
        exact congrArg (·, b) (dictSet_append _ hk)
      rw [hstep, ih _ _ hdisj' hnd', List.map_cons]
      have hpe : procEntry kv =
          (kv.1, if condB kv then mask_value kv.1 kv.2 else kv.2) := rfl
      rw [← hpe, List.append_assoc, List.singleton_append, List.any_cons]
      rw [Bool.eq_false_iff.mpr hc]
      simp

theorem find?_eq_of_nodup {r : Record} {k v : String}
    (hnd : (r.map Prod.fst).Nodup) (hmem : (k, v) ∈ r) :
    r.find? (fun kv => decide (kv.1 = k)) = some (k, v) := by
  induction r with
  | nil => simp at hmem
  | cons a rest ih =>
    rw [List.map_cons, List.nodup_cons] at hnd
    rw [List.find?_cons]
    by_cases hk : a.1 = k
    · rcases List.mem_cons.mp hmem with ha | ha
      · rw [decide_eq_true hk, ← ha]
      · exfalso
        exact hnd.1 (hk ▸ List.mem_map.mpr ⟨(k, v), ha, rfl⟩)
    · rw [decide_eq_false hk]
      rcases List.mem_cons.mp hmem with ha | ha
      · exact absurd (congrArg Prod.fst ha.symm) hk
      · exact ih hnd.2 ha

theorem lookupV_eq_of_nodup {r : Record} {k v : String}
    (hnd : (r.map Prod.fst).Nodup) (hmem : (k, v) ∈ r) :
    lookupV r k = some v := by
  rw [lookupV, find?_eq_of_nodup hnd hmem]
  rfl

theorem qualifies_ne_empty {data : Record} {k v : String}
    (h : qualifies data k v = true) : ¬(v = "") := by
  intro hv
  subst hv
  simp [qualifies] at h

theorem mem_found {data : Record} {f : String}
    (hf : f ∈ (detect_combinatorial_pii data).2) :
    ∃ v, (f, v) ∈ data ∧ qualifies data f v = true := by
  simp only [detect_combinatorial_pii] at hf
  rcases List.mem_map.mp hf with ⟨kv, hkv, hfst⟩
  rcases List.mem_filter.mp hkv with ⟨hmem, hq⟩
  subst hfst
  exact ⟨kv.2, by simpa using hmem, hq⟩

theorem maskFound_eq (r : Record) :
    ∀ (found : List String) (red : Record),
      (∀ f ∈ found, f ∈ red.map Prod.fst) →
      (∀ f ∈ found, ∃ v,
        r.find? (fun kv => decide (kv.1 = f)) = some (f, v) ∧ ¬(v = "")) →
      maskFound r red found =
        red.map fun kv =>
          if kv.1 ∈ found then
            (kv.1, mask_value kv.1 ((lookupV r kv.1).getD ""))
          else kv := by
  intro found
  induction found with
  | nil =>
    intro red _ _
    rw [maskFound, List.foldl_nil]
    refine ((List.map_congr_left ?_).trans (List.map_id red)).symm
    intro kv _
    simp
  | cons f fs ih =>
    intro red hkeys hvals
    obtain ⟨v, hfind, hv⟩ := hvals f (by simp)
    have hstep : maskFound r red (f :: fs) =
        maskFound r (dictSet red f (mask_value f v)) fs := by
      simp only [maskFound, List.foldl_cons, hfind, if_neg hv]
    have hfred : f ∈ red.map Prod.fst := hkeys f (by simp)
    rw [hstep, dictSet_update _ hfred]
    have hlook : lookupV r f = some v := by
      rw [lookupV, hfind]
      rfl
    rw [ih _ ?_ ?_]
    · rw [List.map_map]
      refine List.map_congr_left ?_
      intro kv _
      simp only [Function.comp, List.mem_cons]
      by_cases hkf : kv.1 = f
      · by_cases hffs : f ∈ fs
        · simp [hkf, hffs, hlook]
        · simp [hkf, hffs, hlook]
      · by_cases hkfs : kv.1 ∈ fs
        · simp [hkf, hkfs]
        · simp [hkf, hkfs]
    · intro f' hf'
      rw [map_fst_dictSet_update]
      exact hkeys f' (List.mem_cons_of_mem _ hf')
    · intro f' hf'
      exact hvals f' (List.mem_cons_of_mem _ hf')

/-- Any-false variant: no field fires the standalone guard. -/
theorem map_procEntry_of_no_standalone {r : Record}
    (h : r.any condB = false) : r.map procEntry = r := by
  have hall : ∀ kv ∈ r, condB kv = false := by
    intro kv hkv
    by_contra hc
    rw [Bool.not_eq_false] at hc
    exact absurd (List.any_eq_true.mpr ⟨kv, hkv, hc⟩) (by rw [h]; simp)
  refine (List.map_congr_left ?_).trans (List.map_id r)
  intro kv hkv
  rw [procEntry, if_neg (by rw [hall kv hkv]; simp)]
  rfl

/-- Characterization of `process_record` on a record with unique keys
(every Python dict): first the standalone pass over every field; the
combinatorial pass runs only when the first pass found nothing, and then
masks exactly the fields reported by `detect_combinatorial_pii`. -/
theorem process_record_eq (r : Record) (hnd : (r.map Prod.fst).Nodup) :
    process_record r =
      if r.any condB then (r.map procEntry, true)
      else if (detect_combinatorial_pii r).1 then
        (r.map fun kv =>
          if kv.1 ∈ (detect_combinatorial_pii r).2 then
            (kv.1, mask_value kv.1 kv.2)
          else kv, true)
      else (r, false) := by
  have hfold : r.foldl firstStep ([], false) = (r.map procEntry, r.any condB) := by
    rw [foldl_firstStep r [] false (by intro kv _ h; simp at h) hnd]
    simp
  by_cases hany : r.any condB
  · rw [process_record, hfold, hany]
    simp
  · have hany' : r.any condB = false := Bool.eq_false_iff.mpr hany
    rw [process_record, hfold, hany']
    simp only [Bool.false_eq_true, if_false, ite_false]
    by_cases hcomb : (detect_combinatorial_pii r).1
    · rw [if_pos hcomb, if_pos hcomb]
      have hred : r.map procEntry = r :=
        map_procEntry_of_no_standalone (Bool.eq_false_iff.mpr hany)
      rw [hred]
      have hkeys : ∀ f ∈ (detect_combinatorial_pii r).2, f ∈ r.map Prod.fst := by
        intro f hf
        obtain ⟨v, hmem, _⟩ := mem_found hf
        exact List.mem_map.mpr ⟨(f, v), hmem, rfl⟩
      have hvals : ∀ f ∈ (detect_combinatorial_pii r).2, ∃ v,
          r.find? (fun kv => decide (kv.1 = f)) = some (f, v) ∧ ¬(v = "") := by
        intro f hf
        obtain ⟨v, hmem, hq⟩ := mem_found hf
        exact ⟨v, find?_eq_of_nodup hnd hmem, qualifies_ne_empty hq⟩
      rw [maskFound_eq r _ r hkeys hvals]
      refine congrArg (·, true) ?_
      refine List.map_congr_left ?_
      intro kv hkv
      by_cases hin : kv.1 ∈ (detect_combinatorial_pii r).2
      · rw [if_pos hin, if_pos hin]
        have : lookupV r kv.1 = some kv.2 :=
          lookupV_eq_of_nodup hnd (by cases kv; exact hkv)
        rw [this]
        rfl
      · rw [if_neg hin, if_neg hin]
    · rw [if_neg hcomb, if_neg hcomb]
      rw [map_procEntry_of_no_standalone (Bool.eq_false_iff.mpr hany)]

/-! ### Mask-shape lemmas -/

theorem ne_empty_of_data {v : String} {n : Nat} (hlen : v.data.length = n)
    (hn : n ≠ 0) : ¬(v = "") := by
  intro h
  subst h
  have : ([] : List Char).length = n := hlen
  simp at this
  exact hn this.symm

theorem strip_eq_self_of_digits {v : String}
    (hdig : v.data.all Char.isDigit = true) : strip v = v := by
  apply String.ext
  rw [strip_data]
  apply stripL_eq_self
  intro c hc
  exact not_ws_of_digit (List.all_eq_true.mp hdig c hc)

theorem mask_phone_shape {key : String} (hkey : key = "phone" ∨ key = "contact")
    {v : String} (hlen : v.data.length = 10)
    (hdig : v.data.all Char.isDigit = true) :
    (mask_value key v).data = v.data.take 2 ++ xRun 6 ++ v.data.drop 8 := by
  have hne : ¬(v = "") := ne_empty_of_data hlen (by simp)
  have hguard : (decide (v.data.length = 10) && v.data.all Char.isDigit) = true := by
    rw [hlen, hdig]
    simp
  simp only [mask_value, if_neg hne, strip_eq_self_of_digits hdig, if_pos hkey,
    if_pos hguard]
  rw [pyLast, hlen]

theorem mask_aadhar_shape {v : String} (hlen : v.data.length = 12)
    (hdig : v.data.all Char.isDigit = true) :
    (mask_value "aadhar" v).data = v.data.take 4 ++ xRun 4 ++ v.data.drop 8 := by
  have hne : ¬(v = "") := ne_empty_of_data hlen (by simp)
  have hguard : (decide (v.data.length = 12) && v.data.all Char.isDigit) = true := by
    rw [hlen, hdig]
    simp
  simp only [mask_value, if_neg hne, strip_eq_self_of_digits hdig, if_pos hguard]
  simp [pyLast, hlen]

/-! ### Claim theorems -/

/-- C1: `process_record {"phone": "9876543210"}` yields `"98XXXXXX10"` with
PII flag true and `{"aadhar": "123456789012"}` yields `"1234XXXX9012"` with
PII flag true; in general a 10-digit value masked under `phone`/`contact`
shows the first 2 characters, six `X`, and the last 2, and a 12-digit value
masked under `aadhar` shows the first 4 characters, four `X`, and the
last 4. -/
theorem c1_mask_shapes :
    process_record [("phone", "9876543210")] = ([("phone", "98XXXXXX10")], true) ∧
    process_record [("aadhar", "123456789012")] =
      ([("aadhar", "1234XXXX9012")], true) ∧
    (∀ v : String, v.data.length = 10 → v.data.all Char.isDigit = true →
      (mask_value "phone" v).data = v.data.take 2 ++ xRun 6 ++ v.data.drop 8 ∧
      (mask_value "contact" v).data = v.data.take 2 ++ xRun 6 ++ v.data.drop 8) ∧
    (∀ v : String, v.data.length = 12 → v.data.all Char.isDigit = true →
      (mask_value "aadhar" v).data = v.data.take 4 ++ xRun 4 ++ v.data.drop 8) := by
  refine ⟨by decide, by decide, ?_, ?_⟩
  · intro v hlen hdig
    exact ⟨mask_phone_shape (Or.inl rfl) hlen hdig,
      mask_phone_shape (Or.inr rfl) hlen hdig⟩
  · intro v hlen hdig
    exact mask_aadhar_shape hlen hdig

theorem c1_mask_shapes_witness :
    ("9876543210" : String).data.length = 10 ∧
    (mask_value "phone" "9876543210").data =
      ("9876543210" : String).data.take 2 ++ xRun 6 ++
        ("9876543210" : String).data.drop 8 :=
  ⟨by decide, (c1_mask_shapes.2.2.1 "9876543210" (by decide) (by decide)).1⟩

/-- C6: `is_standalone_pii` on field `phone` (and `contact`) holds exactly
when the stripped value is exactly ten decimal digits, and is false on the
empty value. -/
theorem c6_phone_iff (v : String) :
    (is_standalone_pii "phone" v = true ↔
      (strip v).data.length = 10 ∧ ∀ c ∈ (strip v).data, c.isDigit = true) ∧
    (is_standalone_pii "contact" v = true ↔
      (strip v).data.length = 10 ∧ ∀ c ∈ (strip v).data, c.isDigit = true) ∧
    is_standalone_pii "phone" "" = false ∧
    is_standalone_pii "contact" "" = false := by
  refine ⟨?_, ?_, by decide, by decide⟩ <;>
  · by_cases hv : v = ""
    · subst hv
      simp [is_standalone_pii, strip, stripL]
    · simp [is_standalone_pii, hv, phoneMatch, List.all_eq_true]

theorem c6_phone_iff_witness :
    is_standalone_pii "phone" "9876543210" = true :=
  (c6_phone_iff "9876543210").1.mpr ⟨by decide, by decide⟩

/-- C9: core totality behaviours: masking an empty value returns it
unchanged, the detectors treat empty values as no PII signal, and
re-masking an already-masked phone value falls back to the generic mask
instead of failing. -/
theorem c9_totality :
    (∀ k : String, mask_value k "" = "") ∧
    (∀ k : String, is_standalone_pii k "" = false) ∧
    (∀ (d : Record) (k : String), qualifies d k "" = false) ∧
    (∀ v : String, v.data.length = 10 → v.data.all Char.isDigit = true →
      mask_value "phone" (mask_value "phone" v) = "[REDACTED_PII]") := by
  refine ⟨?_, ?_, ?_, ?_⟩
  · intro k
    simp [mask_value]
  · intro k
    simp [is_standalone_pii]
  · intro d k
    simp [qualifies]
  · intro v hlen hdig
    have hshape := mask_phone_shape (Or.inl rfl) hlen hdig
    set m := mask_value "phone" v with hm
    have hmlen : m.data.length = 10 := by
      rw [hshape]
      simp only [List.length_append, List.length_take, List.length_drop,
        List.length_replicate, xRun, hlen]
      decide
    have hmne : ¬(m = "") := ne_empty_of_data hmlen (by simp)
    have hmws : ∀ c ∈ m.data, c.isWhitespace = false := by
      intro c hc
      rw [hshape] at hc
      rcases List.mem_append.mp hc with hc | hc
      · rcases List.mem_append.mp hc with hc | hc
        · exact not_ws_of_digit
            (List.all_eq_true.mp hdig c (List.take_subset _ _ hc))
        · rw [xRun] at hc
          rw [(List.mem_replicate.mp hc).2]
          decide
      · exact not_ws_of_digit
          (List.all_eq_true.mp hdig c (List.drop_subset _ _ hc))
    have hstripm : strip m = m := by
      apply String.ext
      rw [strip_data]
      exact stripL_eq_self hmws
    have hnotall : m.data.all Char.isDigit = false := by
      rw [Bool.eq_false_iff]
      intro hall
      have hXmem : 'X' ∈ m.data := by
        rw [hshape]
        exact List.mem_append.mpr (Or.inl (List.mem_append.mpr (Or.inr
          (List.mem_replicate.mpr ⟨by simp, rfl⟩))))
      have := List.all_eq_true.mp hall 'X' hXmem
      simp [Char.isDigit] at this
    simp [mask_value, hmne, hstripm, hmlen, hnotall, redactedLit]

theorem c9_totality_witness :
    ("9876543210" : String).data.length = 10 ∧
    mask_value "phone" (mask_value "phone" "9876543210") = "[REDACTED_PII]" :=
  ⟨by decide, c9_totality.2.2.2 "9876543210" (by decide) (by decide)⟩

theorem is_standalone_pii_false_of_not_key {k v : String}
    (h : ¬(k = "phone") ∧ ¬(k = "contact") ∧ ¬(k = "aadhar") ∧
      ¬(k = "passport") ∧ ¬(k = "upi_id")) :
    is_standalone_pii k v = false := by
  obtain ⟨h1, h2, h3, h4, h5⟩ := h
  by_cases hv : v = ""
  · simp [is_standalone_pii, hv]
  · simp [is_standalone_pii, hv, h1, h2, h3, h4, h5]

theorem qualifies_key_mem {data : Record} {k v : String}
    (h : qualifies data k v = true) :
    k = "name" ∨ k = "email" ∨ k = "address" ∨ k = "device_id" ∨
      k = "ip_address" := by
  by_contra hk
  push_neg at hk
  obtain ⟨h1, h2, h3, h4, h5⟩ := hk
  by_cases hv : v = ""
  · rw [qualifies, if_pos hv] at h
    exact absurd h (by simp)
  · simp [qualifies, hv, h1, h2, h3, h4, h5] at h

/-- C2: standalone detection takes precedence: as soon as one field fires
the standalone guard, `process_record` is exactly the standalone pass (the
combinatorial path masks nothing), and every non-standalone field keeps
its value; when no field fires, the combinatorial pass masks only fields
in its own qualifying list. -/
theorem c2_standalone_precedence (r : Record)
    (hnd : (r.map Prod.fst).Nodup) :
    ((∃ kv ∈ r, condB kv = true) →
      process_record r = (r.map procEntry, true) ∧
      ∀ kv ∈ r, condB kv = false → (kv.1, kv.2) ∈ (process_record r).1) ∧
    (r.any condB = false →
      ∀ kv ∈ r, kv.1 ∉ (detect_combinatorial_pii r).2 →
      (kv.1, kv.2) ∈ (process_record r).1) := by
  have heq := process_record_eq r hnd
  constructor
  · rintro ⟨kv0, hkv0, hc0⟩
    have hany : r.any condB = true := List.any_eq_true.mpr ⟨kv0, hkv0, hc0⟩
    rw [heq, if_pos hany]
    refine ⟨rfl, ?_⟩
    intro kv hkv hc
    exact List.mem_map.mpr ⟨kv, hkv, by rw [procEntry, if_neg (by simp [hc])]⟩
  · intro hany kv hkv hnotf
    rw [heq, if_neg (by simp [hany])]
    by_cases hcomb : (detect_combinatorial_pii r).1
    · rw [if_pos hcomb]
      exact List.mem_map.mpr ⟨kv, hkv, by rw [if_neg hnotf]⟩
    · rw [if_neg hcomb]
      exact hkv

theorem c2_standalone_precedence_witness :
    (∃ kv ∈ ([("phone", "9876543210"), ("name", "Asha Rao")] : Record),
        condB kv = true) ∧
    process_record [("phone", "9876543210"), ("name", "Asha Rao")] =
      ([("phone", "9876543210"), ("name", "Asha Rao")].map procEntry, true) ∧
    (("name", "Asha Rao") : String × String) ∈
      (process_record [("phone", "9876543210"), ("name", "Asha Rao")]).1 := by
  have h := (c2_standalone_precedence
    [("phone", "9876543210"), ("name", "Asha Rao")] (by decide)).1
    ⟨("phone", "9876543210"), by decide, by decide⟩
  exact ⟨⟨("phone", "9876543210"), by decide, by decide⟩, h.1,
    h.2 ("name", "Asha Rao") (by decide) (by decide)⟩

/-- C5: `process_record` preserves the field names and their order
(nothing is added or dropped), passes unrecognized fields through
verbatim, and leaves `{"city": "Pune"}` unchanged with PII flag false. -/
theorem c5_frame (r : Record) (hnd : (r.map Prod.fst).Nodup) :
    (process_record r).1.map Prod.fst = r.map Prod.fst ∧
    (∀ kv ∈ r, kv.1 ∉ (["phone", "contact", "aadhar", "passport", "upi_id",
        "name", "email", "address", "device_id", "ip_address"] : List String) →
      (kv.1, kv.2) ∈ (process_record r).1) ∧
    process_record [("city", "Pune")] = ([("city", "Pune")], false) := by
  have heq := process_record_eq r hnd
  refine ⟨?_, ?_, by decide⟩
  · rw [heq]
    by_cases hany : r.any condB
    · rw [if_pos hany]
      show (r.map procEntry).map Prod.fst = r.map Prod.fst
      rw [List.map_map]
      exact List.map_congr_left (fun kv _ => rfl)
    · rw [if_neg hany]
      by_cases hcomb : (detect_combinatorial_pii r).1
      · rw [if_pos hcomb]
        show (r.map _).map Prod.fst = r.map Prod.fst
        rw [List.map_map]
        refine List.map_congr_left ?_
        intro kv _
        by_cases hin : kv.1 ∈ (detect_combinatorial_pii r).2 <;>
          simp [Function.comp, hin]
      · rw [if_neg hcomb]
  · intro kv hkv hmem
    simp only [List.mem_cons, List.not_mem_nil, not_or, or_false] at hmem
    obtain ⟨h1, h2, h3, h4, h5, h6, h7, h8, h9, h10⟩ := hmem
    have hcond : condB kv = false := by
      rw [condB, is_standalone_pii_false_of_not_key ⟨h1, h2, h3, h4, h5⟩]
      simp
    have hnotf : kv.1 ∉ (detect_combinatorial_pii r).2 := by
      intro hf
      obtain ⟨v, _, hq⟩ := mem_found hf
      rcases qualifies_key_mem hq with h | h | h | h | h
      · exact h6 h
      · exact h7 h
      · exact h8 h
      · exact h9 h
      · exact h10 h
    rw [heq]
    by_cases hany : r.any condB
    · rw [if_pos hany]
      exact List.mem_map.mpr ⟨kv, hkv, by rw [procEntry, if_neg (by simp [hcond])]⟩
    · rw [if_neg hany]
      by_cases hcomb : (detect_combinatorial_pii r).1
      · rw [if_pos hcomb]
        exact List.mem_map.mpr ⟨kv, hkv, by rw [if_neg hnotf]⟩
      · rw [if_neg hcomb]
        exact hkv

theorem c5_frame_witness :
    (process_record [("city", "Pune"), ("phone", "9876543210")]).1.map
        Prod.fst = ["city", "phone"] ∧
    (("city", "Pune") : String × String) ∈
      (process_record [("city", "Pune"), ("phone", "9876543210")]).1 := by
  have h := c5_frame [("city", "Pune"), ("phone", "9876543210")] (by decide)
  exact ⟨h.1, h.2.1 ("city", "Pune") (by decide) (by decide)⟩

/-- C3: a `device_id`/`ip_address` field enters the qualifying list only
when the record also holds a full-name-shaped `name` value or an
email-shaped `email` value; the PII boolean is true exactly when at least
two field names qualify; and the two documented examples hold. -/
theorem c3_combinatorial (data : Record) :
    (∀ k ∈ (detect_combinatorial_pii data).2,
      (k = "device_id" ∨ k = "ip_address") →
      ((∃ v, lookupV data "name" = some v ∧ is_full_name v = true) ∨
       (∃ v, lookupV data "email" = some v ∧ emailMatchPy v.data = true))) ∧
    ((detect_combinatorial_pii data).1 = true ↔
      2 ≤ (detect_combinatorial_pii data).2.length) ∧
    detect_combinatorial_pii [("name", "Asha Rao"), ("device_id", "abc123")] =
      (true, ["name", "device_id"]) ∧
    detect_combinatorial_pii [("device_id", "abc123")] = (false, []) := by
  refine ⟨?_, ?_, by decide, by decide⟩
  · intro k hk hdev
    obtain ⟨v, _, hq⟩ := mem_found hk
    have hv : ¬(v = "") := qualifies_ne_empty hq
    have hk1 : ¬(k = "name") := by rcases hdev with h | h <;> subst h <;> decide
    have hk2 : ¬(k = "email") := by rcases hdev with h | h <;> subst h <;> decide
    have hk3 : ¬(k = "address") := by
      rcases hdev with h | h <;> subst h <;> decide
    have huc : userContext data = true := by
      simp only [qualifies, if_neg hv, if_neg hk1, if_neg hk2, if_neg hk3,
        if_pos hdev] at hq
      exact hq
    rw [userContext] at huc
    simp only [Bool.and_eq_true, Bool.or_eq_true] at huc
    rcases huc.2 with hname | hemail
    · left
      cases hlook : lookupV data "name" with
      | none => rw [hlook] at hname; exact absurd hname (by simp)
      | some v' => rw [hlook] at hname; exact ⟨v', rfl, hname⟩
    · right
      cases hlook : lookupV data "email" with
      | none => rw [hlook] at hemail; exact absurd hemail (by simp)
      | some v' => rw [hlook] at hemail; exact ⟨v', rfl, hemail⟩
  · simp [detect_combinatorial_pii]

theorem c3_combinatorial_witness :
    ("device_id" : String) ∈
      (detect_combinatorial_pii
        [("name", "Asha Rao"), ("device_id", "abc123")]).2 ∧
    ((∃ v, lookupV [("name", "Asha Rao"), ("device_id", "abc123")] "name" =
        some v ∧ is_full_name v = true) ∨
     (∃ v, lookupV [("name", "Asha Rao"), ("device_id", "abc123")] "email" =
        some v ∧ emailMatchPy v.data = true)) :=
  ⟨by decide,
    (c3_combinatorial [("name", "Asha Rao"), ("device_id", "abc123")]).1
      "device_id" (by decide) (Or.inl rfl)⟩

/-- C4 counterexample: a record meeting all of the claim's hypotheses
(non-empty `device_id` and `ip_address`, a full-name-shaped `name`, no
standalone-PII field) whose qualifying list also contains `email`, so the
detector does not report exactly the three field names
`name`, `device_id`, `ip_address`. -/
theorem c4_counterexample :
    (([("name", "Asha Rao"), ("email", "ab@cd.ef"), ("device_id", "abc123"),
        ("ip_address", "10.0.0.1")] : Record).all
      (fun kv => !condB kv) = true) ∧
    is_full_name "Asha Rao" = true ∧
    ¬(("abc123" : String) = "") ∧ ¬(("10.0.0.1" : String) = "") ∧
    ("email" : String) ∈
      (detect_combinatorial_pii [("name", "Asha Rao"), ("email", "ab@cd.ef"),
        ("device_id", "abc123"), ("ip_address", "10.0.0.1")]).2 ∧
    ¬(("email" : String) ∈
        (["name", "device_id", "ip_address"] : List String)) := by
  decide

theorem two_le_length_of_mem {α : Type} {a b : α} {l : List α} (hab : a ≠ b)
    (ha : a ∈ l) (hb : b ∈ l) : 2 ≤ l.length := by
  cases l with
  | nil => simp at ha
  | cons x l =>
    cases l with
    | nil =>
      rw [List.mem_singleton] at ha hb
      exact absurd (ha.trans hb.symm) hab
    | cons y l =>
      rw [List.length_cons, List.length_cons]
      omega

/-- C4 (amended): for every record that contains a full-name-shaped `name`
field and non-empty `device_id` and `ip_address` fields (in any position,
alongside arbitrary further fields), has no standalone-PII field, and in
which no other field qualifies combinatorially, the detector's qualifying
set is exactly the 3 field names `name`, `device_id`, `ip_address`, the
PII flag is set, and `process_record` masks all three fields. -/
theorem c4_amended (r : Record) (hnd : (r.map Prod.fst).Nodup)
    (n d i : String)
    (hn : ("name", n) ∈ r) (hfn : is_full_name n = true)
    (hd : ("device_id", d) ∈ r) (hdne : ¬(d = ""))
    (hi : ("ip_address", i) ∈ r) (hine : ¬(i = ""))
    (hnostand : ∀ kv ∈ r, condB kv = false)
    (hnoother : ∀ kv ∈ r,
      kv.1 ∉ (["name", "device_id", "ip_address"] : List String) →
      qualifies r kv.1 kv.2 = false) :
    (detect_combinatorial_pii r).1 = true ∧
    (∀ k, k ∈ (detect_combinatorial_pii r).2 ↔
      k ∈ (["name", "device_id", "ip_address"] : List String)) ∧
    (process_record r).2 = true ∧
    ("name", mask_value "name" n) ∈ (process_record r).1 ∧
    ("device_id", mask_value "device_id" d) ∈ (process_record r).1 ∧
    ("ip_address", mask_value "ip_address" i) ∈ (process_record r).1 := by
  have hnne : ¬(n = "") := by
    intro h0
    rw [h0] at hfn
    exact absurd hfn (by decide)
  have hlook : lookupV r "name" = some n := lookupV_eq_of_nodup hnd hn
  have huc : userContext r = true := by
    rw [userContext, hlook]
    simp [truthy, hnne, hfn]
  have hqname : qualifies r "name" n = true := by
    simp [qualifies, hnne, is_full_name_strip, hfn]
  have hqdev : qualifies r "device_id" d = true := by
    simp [qualifies, hdne, huc]
  have hqip : qualifies r "ip_address" i = true := by
    simp [qualifies, hine, huc]
  have hmemname : ("name" : String) ∈ (detect_combinatorial_pii r).2 := by
    simp only [detect_combinatorial_pii]
    exact List.mem_map.mpr ⟨("name", n), List.mem_filter.mpr ⟨hn, hqname⟩, rfl⟩
  have hmemdev : ("device_id" : String) ∈ (detect_combinatorial_pii r).2 := by
    simp only [detect_combinatorial_pii]
    exact List.mem_map.mpr ⟨("device_id", d),
      List.mem_filter.mpr ⟨hd, hqdev⟩, rfl⟩
  have hmemip : ("ip_address" : String) ∈ (detect_combinatorial_pii r).2 := by
    simp only [detect_combinatorial_pii]
    exact List.mem_map.mpr ⟨("ip_address", i),
      List.mem_filter.mpr ⟨hi, hqip⟩, rfl⟩
  have hiff : ∀ k, k ∈ (detect_combinatorial_pii r).2 ↔
      k ∈ (["name", "device_id", "ip_address"] : List String) := by
    intro k
    constructor
    · intro hk
      by_contra hknot
      obtain ⟨v, hmem, hq⟩ := mem_found hk
      have hfalse := hnoother (k, v) hmem hknot
      rw [hq] at hfalse
      exact absurd hfalse (by simp)
    · intro hk
      simp only [List.mem_cons, List.not_mem_nil, or_false] at hk
      rcases hk with rfl | rfl | rfl
      · exact hmemname
      · exact hmemdev
      · exact hmemip
  have hlen2 : 2 ≤ (detect_combinatorial_pii r).2.length :=
    two_le_length_of_mem
      (by decide : ("name" : String) ≠ "device_id") hmemname hmemdev
  have hflag : (detect_combinatorial_pii r).1 = true := by
    simp only [detect_combinatorial_pii] at hlen2 ⊢
    exact decide_eq_true hlen2
  have hany : r.any condB = false := by
    rw [Bool.eq_false_iff]
    intro h
    obtain ⟨kv, hkv, hc⟩ := List.any_eq_true.mp h
    rw [hnostand kv hkv] at hc
    exact absurd hc (by simp)
  have heq := process_record_eq r hnd
  rw [if_neg (by simp [hany]), if_pos hflag] at heq
  refine ⟨hflag, hiff, by rw [heq], ?_, ?_, ?_⟩
  · rw [heq]
    exact List.mem_map.mpr ⟨("name", n), hn, by simp [hmemname]⟩
  · rw [heq]
    exact List.mem_map.mpr ⟨("device_id", d), hd, by simp [hmemdev]⟩
  · rw [heq]
    exact List.mem_map.mpr ⟨("ip_address", i), hi, by simp [hmemip]⟩

theorem c4_amended_witness :
    (process_record [("device_id", "abc123"), ("city", "Pune"),
        ("name", "Asha Rao"), ("ip_address", "10.0.0.1")]).2 = true ∧
    ("name", mask_value "name" "Asha Rao") ∈
      (process_record [("device_id", "abc123"), ("city", "Pune"),
        ("name", "Asha Rao"), ("ip_address", "10.0.0.1")]).1 ∧
    ("device_id", mask_value "device_id" "abc123") ∈
      (process_record [("device_id", "abc123"), ("city", "Pune"),
        ("name", "Asha Rao"), ("ip_address", "10.0.0.1")]).1 ∧
    ("ip_address", mask_value "ip_address" "10.0.0.1") ∈
      (process_record [("device_id", "abc123"), ("city", "Pune"),
        ("name", "Asha Rao"), ("ip_address", "10.0.0.1")]).1 :=
  have h := c4_amended
    [("device_id", "abc123"), ("city", "Pune"), ("name", "Asha Rao"),
      ("ip_address", "10.0.0.1")]
    (by decide) "Asha Rao" "abc123" "10.0.0.1" (by decide) (by decide)
    (by decide) (by decide) (by decide) (by decide) (by decide) (by decide)
  ⟨h.2.2.1, h.2.2.2.1, h.2.2.2.2.1, h.2.2.2.2.2⟩

/-! ### Position/append helpers and the email-shape characterization -/

theorem append_cons_get? {α : Type} (l : List α) (a : α) (t : List α) :
    (l ++ a :: t).get? l.length = some a := by
  induction l with
  | nil => rfl
  | cons x l ih => simpa using ih

theorem append_cons_drop {α : Type} (l : List α) (a : α) (t : List α) :
    (l ++ a :: t).drop (l.length + 1) = t := by
  induction l with
  | nil => rfl
  | cons x l ih => simpa using ih

theorem eq_take_cons_drop {α : Type} {cs : List α} {i : Nat} {a : α}
    (h : cs.get? i = some a) :
    cs = cs.take i ++ a :: cs.drop (i + 1) := by
  induction cs generalizing i with
  | nil => simp at h
  | cons c cs ih =>
    cases i with
    | zero =>
      rw [List.get?_cons_zero] at h
      injection h with h
      subst h
      simp
    | succ i =>
      have h' : cs.get? i = some a := h
      rw [List.take_succ_cons, List.cons_append, List.drop_succ_cons]
      exact congrArg (c :: ·) (ih h')

theorem take_ne_nil_of_get? {α : Type} {cs : List α} {i : Nat} {a : α}
    (h : cs.get? i = some a) (h1 : 1 ≤ i) : cs.take i ≠ [] := by
  intro hnil
  have hlt : i < cs.length := (List.get?_eq_some.mp h).1
  have hlen := congrArg List.length hnil
  rw [List.length_take, List.length_nil, min_eq_left (le_of_lt hlt)] at hlen
  omega

theorem domainDotTld_iff (cs : List Char) :
    domainDotTld cs = true ↔
      ∃ d t : List Char, cs = d ++ '.' :: t ∧ d ≠ [] ∧
        d.all domChar = true ∧ 2 ≤ t.length ∧ t.all tldChar = true := by
  constructor
  · intro h
    rw [domainDotTld, List.any_eq_true] at h
    obtain ⟨j, _, hcond⟩ := h
    simp only [tldPart, Bool.and_eq_true, decide_eq_true_eq] at hcond
    obtain ⟨⟨⟨hget, hj1⟩, hdom⟩, ht, htld⟩ := hcond
    exact ⟨cs.take j, cs.drop (j + 1), eq_take_cons_drop hget,
      take_ne_nil_of_get? hget hj1, hdom, ht, htld⟩
  · rintro ⟨d, t, rfl, hd, hdom, ht, htld⟩
    rw [domainDotTld, List.any_eq_true]
    refine ⟨d.length, ?_, ?_⟩
    · rw [List.mem_range, List.length_append, List.length_cons]
      omega
    · simp only [tldPart, Bool.and_eq_true, decide_eq_true_eq]
      refine ⟨⟨⟨append_cons_get? d '.' t, ?_⟩, ?_⟩, ?_, ?_⟩
      · cases d with
        | nil => exact absurd rfl hd
        | cons x d => simp
      · rw [List.take_left]
        exact hdom
      · rw [append_cons_drop]
        exact ht
      · rw [append_cons_drop]
        exact htld

theorem emailCore_iff (cs : List Char) :
    emailCore cs = true ↔
      ∃ l d t : List Char, cs = l ++ '@' :: (d ++ '.' :: t) ∧ l ≠ [] ∧
        l.all localChar = true ∧ d ≠ [] ∧ d.all domChar = true ∧
        2 ≤ t.length ∧ t.all tldChar = true := by
  constructor
  · intro h
    rw [emailCore, List.any_eq_true] at h
    obtain ⟨i, _, hcond⟩ := h
    simp only [Bool.and_eq_true, decide_eq_true_eq] at hcond
    obtain ⟨⟨⟨hget, hi1⟩, hloc⟩, hdt⟩ := hcond
    obtain ⟨d, t, hsplit, hd, hdom, ht, htld⟩ := (domainDotTld_iff _).mp hdt
    refine ⟨cs.take i, d, t, ?_, take_ne_nil_of_get? hget hi1, hloc, hd,
      hdom, ht, htld⟩
    rw [← hsplit]
    exact eq_take_cons_drop hget
  · rintro ⟨l, d, t, rfl, hl, hloc, hd, hdom, ht, htld⟩
    rw [emailCore, List.any_eq_true]
    refine ⟨l.length, ?_, ?_⟩
    · rw [List.mem_range, List.length_append, List.length_cons]
      omega
    · simp only [Bool.and_eq_true, decide_eq_true_eq]
      refine ⟨⟨⟨append_cons_get? l '@' _, ?_⟩, ?_⟩, ?_⟩
      · cases l with
        | nil => exact absurd rfl hl
        | cons x l => simp
      · rw [List.take_left]
        exact hloc
      · rw [append_cons_drop]
        exact (domainDotTld_iff _).mpr ⟨d, t, rfl, hd, hdom, ht, htld⟩

theorem head?_dropWhile_false {p : Char → Bool} :
    ∀ (l : List Char) (c : Char), (l.dropWhile p).head? = some c →
      p c = false := by
  intro l
  induction l with
  | nil => intro c h; simp at h
  | cons x l ih =>
    intro c h
    by_cases hx : p x
    · rw [List.dropWhile_cons, if_pos hx] at h
      exact ih c h
    · rw [List.dropWhile_cons, if_neg hx, List.head?_cons] at h
      injection h with h
      subst h
      exact Bool.eq_false_iff.mpr hx

theorem strip_getLast_not_ws {v : String} {c : Char}
    (h : (strip v).data.getLast? = some c) : c.isWhitespace = false := by
  rw [strip_data, stripL, List.getLast?_reverse] at h
  exact head?_dropWhile_false _ c h

/-- On stripped values (as used on line 78 of the source) the email match
has no trailing-newline case. -/
theorem emailMatchPy_strip (v : String) :
    emailMatchPy (strip v).data = emailCore (strip v).data := by
  rw [emailMatchPy]
  have hlast : decide ((strip v).data.getLast? = some nlChar) = false := by
    rw [decide_eq_false_iff_not]
    intro h
    have := strip_getLast_not_ws h
    rw [show nlChar.isWhitespace = true from by decide] at this
    exact absurd this (by simp)
  rw [hlast]
  simp

/-- C7 (amended): the email-shape predicate applied by the combinatorial
detector to a stripped value holds exactly when the value decomposes as
`local@domain.tld` with the local part over letters, digits and `._%+-`,
a non-empty domain part followed by a dot, and a TLD of at least two
characters each of which is alphabetic **or the bar `|`** (the source's
character class `[A-Z|a-z]` contains the bar, so a TLD character need not
be alphabetic). -/
theorem c7_email_shape (v : String) :
    (emailMatchPy (strip v).data = true ↔
      ∃ l d t : List Char, (strip v).data = l ++ '@' :: (d ++ '.' :: t) ∧
        l ≠ [] ∧ l.all localChar = true ∧ d ≠ [] ∧ d.all domChar = true ∧
        2 ≤ t.length ∧ t.all tldChar = true) ∧
    (∀ c : Char, tldChar c = true ↔ (c.isAlpha = true ∨ c = '|')) := by
  constructor
  · rw [emailMatchPy_strip]
    exact emailCore_iff _
  · intro c
    simp [tldChar]

theorem c7_email_shape_witness :
    emailMatchPy (strip "ab@cd.ef").data = true :=
  (c7_email_shape "ab@cd.ef").1.mpr ⟨"ab".data, "cd".data, "ef".data,
    by decide, by decide, by decide, by decide, by decide, by decide,
    by decide⟩

/-- C7 counterexample: `"ab@cd.e|"` matches the email pattern although its
TLD `"e|"` contains the non-alphabetic character `|`, contradicting the
claim that no value whose TLD contains a non-alphabetic character
matches. -/
theorem c7_counterexample :
    emailMatchPy (strip "ab@cd.e|").data = true ∧
    (strip "ab@cd.e|").data =
      "ab".data ++ '@' :: ("cd".data ++ '.' :: "e|".data) ∧
    '|' ∈ "e|".data ∧ ('|').isAlpha = false := by
  decide

/-! ### Substring and pincode characterizations for the address heuristic -/

theorem contains_iff_mem {cs : List Char} {c : Char} :
    cs.contains c = true ↔ c ∈ cs := by
  rw [List.contains]
  exact List.elem_iff

theorem startsWithL_iff (p : List Char) :
    ∀ h : List Char, startsWithL p h = true ↔ ∃ rest, h = p ++ rest := by
  induction p with
  | nil =>
    intro h
    simp [startsWithL]
  | cons x p ih =>
    intro h
    cases h with
    | nil =>
      simp [startsWithL]
    | cons y h =>
      rw [startsWithL, Bool.and_eq_true, decide_eq_true_eq, ih h]
      constructor
      · rintro ⟨rfl, rest, rfl⟩
        exact ⟨rest, rfl⟩
      · rintro ⟨rest, hr⟩
        rw [List.cons_append] at hr
        injection hr with h1 h2
        exact ⟨h1.symm, rest, h2⟩

theorem hasSubstr_iff (pat : List Char) :
    ∀ h : List Char, hasSubstr pat h = true ↔ ∃ a b, h = a ++ pat ++ b := by
  intro h
  induction h with
  | nil =>
    simp only [hasSubstr, List.isEmpty_iff]
    constructor
    · intro hp
      exact ⟨[], [], by simp [hp]⟩
    · rintro ⟨a, b, hab⟩
      rcases List.append_eq_nil.mp (List.append_eq_nil.mp hab.symm).1 with ⟨-, h2⟩
      exact h2
  | cons c h ih =>
    rw [hasSubstr, Bool.or_eq_true, startsWithL_iff, ih]
    constructor
    · rintro (⟨rest, hr⟩ | ⟨a, b, hab⟩)
      · exact ⟨[], rest, by simpa using hr⟩
      · exact ⟨c :: a, b, by simp [hab]⟩
    · rintro ⟨a, b, hab⟩
      cases a with
      | nil =>
        left
        exact ⟨b, by simpa using hab⟩
      | cons x a =>
        right
        rw [List.cons_append, List.cons_append] at hab
        injection hab with h1 h2
        exact ⟨a, b, h2⟩

theorem hasPincode_iff (cs : List Char) :
    hasPincode cs = true ↔
      ∃ a m b : List Char, cs = a ++ m ++ b ∧ m.length = 6 ∧
        m.all Char.isDigit = true ∧
        (∀ c, a.getLast? = some c → wordChar c = false) ∧
        (∀ c, b.head? = some c → wordChar c = false) := by
  constructor
  · intro h
    rw [hasPincode, List.any_eq_true] at h
    obtain ⟨i, hi, hcond⟩ := h
    rw [List.mem_range] at hi
    simp only [Bool.and_eq_true, decide_eq_true_eq, Bool.or_eq_true,
      Bool.not_eq_true'] at hcond
    obtain ⟨⟨⟨hlen6, hdig⟩, hbefore⟩, hafter⟩ := hcond
    refine ⟨cs.take i, (cs.drop i).take 6, cs.drop (i + 6), ?_, hlen6, hdig,
      ?_, ?_⟩
    · rw [List.append_assoc]
      conv_lhs => rw [← List.take_append_drop i cs]
      congr 1
      conv_lhs => rw [← List.take_append_drop 6 (cs.drop i)]
      rw [List.drop_drop]
    · intro c hc
      by_cases hi0 : i = 0
      · subst hi0
        simp at hc
      · rcases hbefore with h0 | hw
        · exact absurd h0 hi0
        · have hi1 : 1 ≤ i := Nat.one_le_iff_ne_zero.mpr hi0
          have hgl : (cs.take i).getLast? = cs.get? (i - 1) := by
            rw [List.getLast?_eq_get?, List.length_take,
              min_eq_left (le_of_lt hi), List.get?_take (by omega)]
          rw [hgl] at hc
          rw [hc] at hw
          exact hw
    · intro c hc
      have hb : (cs.drop (i + 6)).head? = cs.get? (i + 6) := by
        rw [List.head?_drop, List.get?_eq_getElem?]
      rw [hb] at hc
      rw [hc] at hafter
      exact hafter
  · rintro ⟨a, m, b, rfl, hm6, hdig, hbefore, hafter⟩
    rw [hasPincode, List.any_eq_true]
    refine ⟨a.length, ?_, ?_⟩
    · rw [List.mem_range, List.length_append, List.length_append]
      omega
    · have hdropa : (a ++ (m ++ b)).drop a.length = m ++ b :=
        List.drop_left a (m ++ b)
      have htake : ((a ++ m ++ b).drop a.length).take 6 = m := by
        rw [List.append_assoc, hdropa, List.take_left' hm6]
      simp only [Bool.and_eq_true, decide_eq_true_eq, Bool.or_eq_true,
        Bool.not_eq_true']
      refine ⟨⟨⟨?_, ?_⟩, ?_⟩, ?_⟩
      · rw [htake, hm6]
      · rw [htake]
        exact hdig
      · cases ha : a.getLast? with
        | none =>
          left
          rw [List.getLast?_eq_none_iff] at ha
          rw [ha]
          rfl
        | some c =>
          right
          have ha' : a ≠ [] := by
            intro h0
            rw [h0] at ha
            simp at ha
          have hlen1 : 0 < a.length := List.length_pos.mpr ha'
          have hget : (a ++ m ++ b).get? (a.length - 1) =
              a.get? (a.length - 1) := by
            rw [List.append_assoc]
            exact List.get?_append (by omega)
          rw [hget, ← List.getLast?_eq_get?, ha]
          exact hbefore c ha
      · have h6 : a.length + 6 - a.length = 6 := by omega
        have hget : (a ++ m ++ b).get? (a.length + 6) = b.get? 0 := by
          rw [List.append_assoc, List.get?_append_right (by omega), h6,
            List.get?_append_right (by omega), hm6]
        rw [hget, List.get?_zero]
        cases hb : b.head? with
        | none => rfl
        | some c => exact hafter c hb

/-- C8: `is_physical_address` holds exactly when either the value contains
a digit, contains a comma and has at least five whitespace-separated
tokens, or it contains a standalone six-digit run (no word character on
either side) together with one of the fixed address keywords as a
case-insensitive substring; and on
`"221B, Baker Street, Near Park, 560001"` both disjuncts hold. -/
theorem c8_physical_address (v : String) :
    (is_physical_address v = true ↔
      (((∃ c ∈ v.data, c.isDigit = true) ∧ ',' ∈ v.data ∧
          5 ≤ (words v.data).length) ∨
        ((∃ a m b : List Char, v.data = a ++ m ++ b ∧ m.length = 6 ∧
            m.all Char.isDigit = true ∧
            (∀ c, a.getLast? = some c → wordChar c = false) ∧
            (∀ c, b.head? = some c → wordChar c = false)) ∧
          ∃ k ∈ addressKeywords, ∃ a b : List Char,
            v.data.map Char.toLower = a ++ k ++ b))) ∧
    is_physical_address "221B, Baker Street, Near Park, 560001" = true ∧
    (hasPincode ("221B, Baker Street, Near Park, 560001" : String).data =
        true ∧
      addressKeywords.any (fun k => hasSubstr k
        (("221B, Baker Street, Near Park, 560001" : String).data.map
          Char.toLower)) = true) ∧
    (("221B, Baker Street, Near Park, 560001" : String).data.any
        Char.isDigit = true ∧
      ("221B, Baker Street, Near Park, 560001" : String).data.contains ',' =
        true ∧
      5 ≤ (words
        ("221B, Baker Street, Near Park, 560001" : String).data).length) := by
  refine ⟨?_, by decide, ⟨by decide, by decide⟩, ⟨by decide, by decide,
    by decide⟩⟩
  simp only [is_physical_address, Bool.or_eq_true, Bool.and_eq_true,
    decide_eq_true_eq, List.any_eq_true, contains_iff_mem, hasPincode_iff,
    hasSubstr_iff, and_assoc]

theorem c8_physical_address_witness :
    is_physical_address "12 MG Road, Pune, near lake, 411001 India" = true :=
  (c8_physical_address "12 MG Road, Pune, near lake, 411001 India").1.mpr
    (Or.inl ⟨⟨'1', by decide, by decide⟩, by decide, by decide⟩)

/-! ### Full-name mask roundtrip -/

theorem mem_of_getLast?_eq {α : Type} :
    ∀ {l : List α} {a : α}, l.getLast? = some a → a ∈ l := by
  intro l
  induction l with
  | nil => intro a h; simp at h
  | cons x l ih =>
    intro a h
    cases l with
    | nil =>
      simp at h
      simp [h]
    | cons y l' =>
      rw [List.getLast?_cons_cons] at h
      exact List.mem_cons_of_mem _ (ih h)

/-- `is_full_name` without the inner strip (which does not change the
token list). -/
theorem is_full_name_eq (value : String) :
    is_full_name value =
      if 2 ≤ (words value.data).length then
        (words value.data).all fun p =>
          pyIsAlphaStr (p.filter fun c => !(c = '-') && !(c = aposChar))
      else false := by
  simp only [is_full_name, words_stripL]

/-- C10: masking a full-name-shaped value under field `name` yields the
first character of the first token followed by `XXX`, a space, and the
first character of the last token followed by `XXXX` — and that masked
output is itself full-name-shaped again (`is_full_name` re-detects it). -/
theorem c10_name_mask (v : String) (hfn : is_full_name v = true) :
    (∃ w1 w2 : List Char, ∃ c1 c2 : Char,
      (words (stripL v.data)).head? = some w1 ∧
      (words (stripL v.data)).getLast? = some w2 ∧
      w1.head? = some c1 ∧ w2.head? = some c2 ∧
      (mask_value "name" v).data =
        c1 :: 'X' :: 'X' :: 'X' :: ' ' :: c2 :: 'X' :: 'X' :: 'X' :: 'X' ::
          []) ∧
    is_full_name (mask_value "name" v) = true := by
  have hfn' := hfn
  simp only [is_full_name] at hfn'
  by_cases hlen : 2 ≤ (words (stripL v.data)).length
  swap
  · rw [if_neg hlen] at hfn'
    exact absurd hfn' (by simp)
  rw [if_pos hlen] at hfn'
  obtain ⟨w1, parts', hp⟩ :
      ∃ w1 parts', words (stripL v.data) = w1 :: parts' := by
    cases hw : words (stripL v.data) with
    | nil => rw [hw] at hlen; simp at hlen
    | cons a l => exact ⟨a, l, rfl⟩
  have hp' : parts' ≠ [] := by
    intro h0
    rw [hp, h0] at hlen
    simp at hlen
  obtain ⟨w2, hw2⟩ :
      ∃ w2, (words (stripL v.data)).getLast? = some w2 := by
    have hne : (words (stripL v.data)).getLast? ≠ none := by
      intro h0
      rw [List.getLast?_eq_none_iff] at h0
      rw [h0] at hlen
      simp at hlen
    exact Option.ne_none_iff_exists'.mp hne
  have hw1mem : w1 ∈ words (stripL v.data) := by
    rw [hp]
    exact List.mem_cons_self _ _
  have hw2mem : w2 ∈ words (stripL v.data) := mem_of_getLast?_eq hw2
  obtain ⟨hw1ne, hw1ws⟩ := words_forall hw1mem
  obtain ⟨hw2ne, hw2ws⟩ := words_forall hw2mem
  obtain ⟨c1, w1', rfl⟩ : ∃ c1 w1', w1 = c1 :: w1' := by
    cases w1 with
    | nil => exact absurd rfl hw1ne
    | cons a l => exact ⟨a, l, rfl⟩
  obtain ⟨c2, w2', rfl⟩ : ∃ c2 w2', w2 = c2 :: w2' := by
    cases w2 with
    | nil => exact absurd rfl hw2ne
    | cons a l => exact ⟨a, l, rfl⟩
  have hc1ws : c1.isWhitespace = false := hw1ws c1 (by simp)
  have hc2ws : c2.isWhitespace = false := hw2ws c2 (by simp)
  have hvne : ¬(v = "") := by
    intro h0
    subst h0
    exact absurd hlen (by decide)
  have hhead : (words (stripL v.data)).headD [] = c1 :: w1' := by
    rw [hp]
    rfl
  have hlastD : (words (stripL v.data)).getLastD [] = c2 :: w2' := by
    rw [List.getLastD_eq_getLast?, hw2]
    rfl
  have hbody : mask_value "name" v =
      ⟨(c1 :: xRun 3) ++ ' ' :: (c2 :: xRun 4)⟩ := by
    simp only [mask_value, if_neg hvne, strip_data, hhead, hlastD]
    simp [hlen]
  have hmask : (mask_value "name" v).data =
      c1 :: 'X' :: 'X' :: 'X' :: ' ' :: c2 :: 'X' :: 'X' :: 'X' :: 'X' ::
        [] := by
    rw [hbody]
    rfl
  refine ⟨⟨c1 :: w1', c2 :: w2', c1, c2, by rw [hp]; rfl, hw2, rfl, rfl,
    hmask⟩, ?_⟩
  have hm : mask_value "name" v =
      ⟨c1 :: 'X' :: 'X' :: 'X' :: ' ' :: c2 :: 'X' :: 'X' :: 'X' :: 'X' ::
        []⟩ := String.ext hmask
  have hX : ('X').isWhitespace = false := by decide
  have hsp : (' ').isWhitespace = true := by decide
  have hwords : words (c1 :: 'X' :: 'X' :: 'X' :: ' ' :: c2 :: 'X' :: 'X' ::
      'X' :: 'X' :: []) = [[c1, 'X', 'X', 'X'], [c2, 'X', 'X', 'X', 'X']] := by
    simp [words, wordsAux, hc1ws, hc2ws, hX, hsp]
  rw [hm, is_full_name_eq]
  have hdata : (⟨c1 :: 'X' :: 'X' :: 'X' :: ' ' :: c2 :: 'X' :: 'X' :: 'X' ::
      'X' :: []⟩ : String).data =
      c1 :: 'X' :: 'X' :: 'X' :: ' ' :: c2 :: 'X' :: 'X' :: 'X' :: 'X' ::
        [] := rfl
  rw [hdata, hwords, if_pos (by simp)]
  rw [List.all_cons, List.all_cons, List.all_nil, Bool.and_true,
    Bool.and_eq_true]
  have hXa : ('X').isAlpha = true := by decide
  constructor
  · by_cases hq : (!(c1 = '-') && !(c1 = aposChar)) = true
    · have hP1 := List.all_eq_true.mp hfn' _ hw1mem
      rw [List.filter_cons, if_pos hq] at hP1
      rw [pyIsAlphaStr, Bool.and_eq_true, List.all_cons, Bool.and_eq_true]
        at hP1
      have hc1a : c1.isAlpha = true := hP1.2.1
      rw [List.filter_cons, if_pos hq]
      simp [pyIsAlphaStr, hc1a, hXa]
    · rw [List.filter_cons, if_neg hq]
      decide
  · by_cases hq : (!(c2 = '-') && !(c2 = aposChar)) = true
    · have hP2 := List.all_eq_true.mp hfn' _ hw2mem
      rw [List.filter_cons, if_pos hq] at hP2
      rw [pyIsAlphaStr, Bool.and_eq_true, List.all_cons, Bool.and_eq_true]
        at hP2
      have hc2a : c2.isAlpha = true := hP2.2.1
      rw [List.filter_cons, if_pos hq]
      simp [pyIsAlphaStr, hc2a, hXa]
    · rw [List.filter_cons, if_neg hq]
      decide

theorem c10_name_mask_witness :
    is_full_name "Asha Rao" = true ∧
    is_full_name (mask_value "name" "Asha Rao") = true :=
  ⟨by decide, (c10_name_mask "Asha Rao" (by decide)).2⟩

end PIIDetector
